import Mathlib

/-!
Verification of the factctl orchestrator sources.

Each definition below is a shallow embedding of a function from the Go
sources (file and function named in its doc comment).  Machine strings are
modelled as Lean strings (lists of characters); byte lengths are computed
through the UTF-8 size of each character, matching Go's len() on strings.
-/

/-! Go standard-library string primitives used by the embedded functions. -/

/-- Whitespace per Go unicode.IsSpace restricted to the Latin-1 range
(space, tab, newline, vertical tab, form feed, carriage return, NEL, NBSP). -/
def goIsSpace (c : Char) : Bool :=
  c = ' ' || c = '\t' || c = '\n' || c = (Char.ofNat 11) || c = (Char.ofNat 12) ||
  c = '\r' || c = (Char.ofNat 0x85) || c = (Char.ofNat 0xA0)

/-- Byte length of a character list under UTF-8, matching Go len() on a string. -/
def goByteLen (s : List Char) : Nat := (s.map Char.utf8Size).sum

/-- Go strings.HasPrefix. -/
def goHasPre (s pre : String) : Bool := pre.data.isPrefixOf s.data

/-- Go strings.TrimPrefix: drops pre when it is a prefix, else returns s. -/
def goTrimPre (s pre : String) : String :=
  if pre.data.isPrefixOf s.data then ⟨s.data.drop pre.data.length⟩ else s

/-- Index of the first occurrence of sub in s (character index; Go strings.Index
returns the byte index, which cuts the string at the same place). -/
def findSubIdx (sub : List Char) : List Char → Option Nat
  | [] => if sub = [] then some 0 else none
  | c :: rest =>
    if sub.isPrefixOf (c :: rest) then some 0
    else (findSubIdx sub rest).map (· + 1)

/-- Go strings.Contains. -/
def goContains (s sub : String) : Bool := (findSubIdx sub.data s.data).isSome

/-- Core of Go strings.SplitN for nonempty separators, bounded by n pieces. -/
def goSplitNCore (sep : List Char) : Nat → List Char → List (List Char)
  | 0, _ => []
  | 1, s => [s]
  | n + 2, s =>
    match findSubIdx sep s with
    | none => [s]
    | some i => s.take i :: goSplitNCore sep (n + 1) (s.drop (i + sep.length))

/-- Go strings.SplitN(s, sep, n) for n > 0 and nonempty sep. -/
def goSplitN (s sep : String) (n : Nat) : List String :=
  (goSplitNCore sep.data n s.data).map (fun l => ⟨l⟩)

/-- Go strings.Split(s, sep) for nonempty sep: at most len(s)+1 pieces exist,
so the bounded core with that budget performs the unbounded split. -/
def goSplit (s sep : String) : List String :=
  (goSplitNCore sep.data (s.data.length + 1) s.data).map (fun l => ⟨l⟩)

/-- Go strings.TrimSpace. -/
def goTrimSpace (s : String) : String :=
  ⟨((s.data.dropWhile goIsSpace).reverse.dropWhile goIsSpace).reverse⟩

/-- Go strings.Trim with an explicit cutset of characters. -/
def goTrimCut (s : String) (cut : List Char) : String :=
  ⟨((s.data.dropWhile (cut.contains ·)).reverse.dropWhile (cut.contains ·)).reverse⟩

/-- Accumulator pass behind Go strings.Fields. -/
def goFieldsCore : List Char → List Char → List (List Char)
  | [], acc => if acc.isEmpty then [] else [acc.reverse]
  | c :: rest, acc =>
    if goIsSpace c then
      if acc.isEmpty then goFieldsCore rest []
      else acc.reverse :: goFieldsCore rest []
    else goFieldsCore rest (c :: acc)

/-- Go strings.Fields: splits around runs of whitespace. -/
def goFields (s : String) : List String := (goFieldsCore s.data []).map (fun l => ⟨l⟩)

/-- Uppercasing used for the log-level comparison: ASCII letters are mapped to
upper case; dotless i and long s are the only further characters whose Unicode
simple upper case is ASCII, so on every comparison against an ASCII word this
map agrees with Go strings.ToUpper. -/
def goToUpperChar (c : Char) : Char :=
  if 'a' ≤ c && c ≤ 'z' then Char.ofNat (c.toNat - 32)
  else if c = Char.ofNat 0x131 then 'I'
  else if c = Char.ofNat 0x17F then 'S'
  else c

/-- Go strings.ToUpper (see goToUpperChar for the modelled character map). -/
def goToUpper (s : String) : String := ⟨s.data.map goToUpperChar⟩

/-- Decimal digit test, Go unicode style for the byte range used here. -/
def goIsDigit (c : Char) : Bool := '0' ≤ c && c ≤ '9'

/-- Numeric value of a digit string (callers check digits beforehand). -/
def digitsVal (s : List Char) : Nat :=
  s.foldl (fun v c => v * 10 + (c.toNat - '0'.toNat)) 0

/-- Go strconv.ParseUint base 10, 64 bit: digits only, nonempty, value below 2^64. -/
def goParseUint (s : List Char) : Option Nat :=
  if s.isEmpty then none
  else if s.all goIsDigit then
    if digitsVal s < 2 ^ 64 then some (digitsVal s) else none
  else none

/-! Embedding of github.com/blang/semver Parse (v3), as imported by
internal/instance/mods.go. -/

/-- Parsed semantic version record (blang/semver Version). -/
structure SemVer where
  major : Nat
  minor : Nat
  patch : Nat
  pre : List String
  build : List String
deriving DecidableEq

/-- blang/semver containsOnly(s, numbers). -/
def svOnlyNumbers (s : List Char) : Bool := s.all goIsDigit

/-- blang/semver hasLeadingZeroes. -/
def svLeadingZeroes (s : List Char) : Bool :=
  decide (1 < s.length) && ['0'].isPrefixOf s

/-- blang/semver alphanumeric class: letters, digits and the hyphen. -/
def svAlphanum (c : Char) : Bool :=
  ('a' ≤ c && c ≤ 'z') || ('A' ≤ c && c ≤ 'Z') || goIsDigit c || c = '-'

/-- blang/semver NewPRVersion: a prerelease dot-part is nonempty and either a
number without leading zeroes or an alphanumeric identifier. -/
def svPREntryOk (s : List Char) : Bool :=
  if s.isEmpty then false
  else if svOnlyNumbers s then
    if svLeadingZeroes s then false else (goParseUint s).isSome
  else s.all svAlphanum

/-- blang/semver NewBuildVersion: nonempty and alphanumeric. -/
def svBuildEntryOk (s : List Char) : Bool :=
  !s.isEmpty && s.all svAlphanum

/-- Major or minor component check and parse (containsOnly, leading-zero
check, then ParseUint), as in blang/semver Parse. -/
def svNumPart (s : List Char) : Option Nat :=
  if svOnlyNumbers s then
    if svLeadingZeroes s then none else goParseUint s
  else none

/-- blang/semver Parse: SplitN on dots into exactly three parts; the third
part is stripped of +build metadata and then of a -prerelease suffix, and all
pieces are validated. -/
def semverParse (s : String) : Option SemVer :=
  if s.isEmpty then none
  else
    match goSplitN s "." 3 with
    | [majS, minS, patchS] =>
      match svNumPart majS.data, svNumPart minS.data with
      | some major, some minor =>
        let afterBuild : List Char × List String :=
          match findSubIdx ['+'] patchS.data with
          | some i => (patchS.data.take i, goSplit ⟨patchS.data.drop (i + 1)⟩ ".")
          | none => (patchS.data, [])
        let afterPre : List Char × List String :=
          match findSubIdx ['-'] afterBuild.1 with
          | some i => (afterBuild.1.take i, goSplit ⟨afterBuild.1.drop (i + 1)⟩ ".")
          | none => (afterBuild.1, [])
        match svNumPart afterPre.1 with
        | some patch =>
          if afterPre.2.all (fun p => svPREntryOk p.data)
              && afterBuild.2.all (fun p => svBuildEntryOk p.data) then
            some ⟨major, minor, patch, afterPre.2, afterBuild.2⟩
          else none
        | none => none
      | _, _ => none
    | _ => none

/-! Embedding of internal/instance/mods.go version-compatibility logic. -/

/-- mods.go normalizeFactorioVersion: strip a leading v, then right-pad a
two-component version with ".0"; three or more components pass through. -/
def normalizeFactorioVersion (version : String) : String :=
  let v := goTrimPre version "v"
  let parts := goSplit v "."
  if parts.length = 2 then v ++ ".0" else v

/-- mods.go isVersionCompatible: normalize both versions, parse them as
semver (after trimming a leading v again) and compare major and minor;
a parse failure on either side yields false. -/
def isVersionCompatible (factorioVersion modVersion : String) : Bool :=
  match semverParse (goTrimPre (normalizeFactorioVersion factorioVersion) "v"),
        semverParse (goTrimPre (normalizeFactorioVersion modVersion) "v") with
  | some fv, some mv => fv.major == mv.major && fv.minor == mv.minor
  | _, _ => false

/-! Embedding of cmd/factctl validateInstanceName. -/

/-- Character class accepted by validateInstanceName. -/
def isAllowedNameChar (c : Char) : Bool :=
  ('a' ≤ c && c ≤ 'z') || ('A' ≤ c && c ≤ 'Z') ||
  ('0' ≤ c && c ≤ '9') || c = '-' || c = '_'

/-- main.go validateInstanceName: empty names and names over 50 bytes are
rejected, then the first character outside the allowed class is rejected.
Returns the error message, or none on acceptance. -/
def validateInstanceName (name : String) : Option String :=
  if name.isEmpty then some "instance name cannot be empty"
  else if 50 < goByteLen name.data then some "instance name too long (max 50 characters)"
  else
    match name.data.find? (fun c => !isAllowedNameChar c) with
    | some _ => some "instance name contains invalid character"
    | none => none

/-! Embedding of internal/instance/mods.go dependency handling. -/

/-- Filter applied by getModDependencies: lines with one of the skip
markers, or beginning with base, contribute nothing. -/
def depLineFiltered (dep : String) : Bool :=
  goHasPre dep "base" || goHasPre dep "?" || goHasPre dep "!" || goHasPre dep "(?)"

/-- Operator split of getModDependencies: the first matching comparison
operator separates the mod name from the version constraint. -/
def depOpSplit (dep : String) : String :=
  if goContains dep " >= " then goTrimSpace ((goSplitN dep " >= " 2).headD "")
  else if goContains dep " <= " then goTrimSpace ((goSplitN dep " <= " 2).headD "")
  else if goContains dep " = " then goTrimSpace ((goSplitN dep " = " 2).headD "")
  else if goContains dep " > " then goTrimSpace ((goSplitN dep " > " 2).headD "")
  else if goContains dep " < " then goTrimSpace ((goSplitN dep " < " 2).headD "")
  else goTrimSpace dep

/-- Name extraction of getModDependencies after the filter: empty names are
dropped, a load-order tilde is stripped. -/
def depLineName (dep : String) : Option String :=
  let n0 := depOpSplit dep
  if n0 = "" then none
  else
    let n1 := if goHasPre n0 "~" then goTrimSpace (goTrimPre n0 "~") else goTrimSpace n0
    if n1 = "" then none else some n1

/-- mods.go getModDependencies, dependency-list part: the names contributed
to the BFS install queue of InstallModsRecursively. -/
def getModDependencies (deps : List String) : List String :=
  deps.filterMap (fun dep => if depLineFiltered dep then none else depLineName dep)

/-- Outcome of mods.go installDependency for one dependency line. -/
inductive DepAction where
  | err : DepAction
  | skip : DepAction
  | install : String → DepAction
deriving DecidableEq

/-- mods.go installDependency: split the line into fields; an empty line is an
error, a first field equal to base or an already installed mod is skipped,
anything else is installed through a portal spec (optionally pinned to the
third field). -/
def installDependencyAction (installed : List String) (dep : String) : DepAction :=
  match goFields dep with
  | [] => .err
  | modName :: rest =>
    if modName = "base" then .skip
    else if installed.contains modName then .skip
    else .install ("portal:" ++ modName ++ (if 1 < rest.length then "@" ++ rest.getD 1 "" else ""))

/-! Embedding of internal/instance/logs.go parseLine. -/

/-- Calendar timestamp as produced by Go time.Parse on the log layout. -/
structure DateTime where
  year : Nat
  month : Nat
  day : Nat
  hour : Nat
  minute : Nat
  second : Nat
deriving DecidableEq

/-- Gregorian leap-year rule used by Go package time. -/
def isLeapYear (y : Nat) : Bool :=
  y % 4 = 0 && (y % 100 ≠ 0 || y % 400 = 0)

/-- Month lengths used by Go package time for day-of-month validation. -/
def daysInMonth (y mo : Nat) : Nat :=
  if mo = 2 then (if isLeapYear y then 29 else 28)
  else if mo = 4 || mo = 6 || mo = 9 || mo = 11 then 30
  else 31

/-- Two fixed decimal digits. -/
def digit2 (a b : Char) : Option Nat :=
  if goIsDigit a && goIsDigit b then some ((a.toNat - 48) * 10 + (b.toNat - 48)) else none

/-- Four fixed decimal digits. -/
def digit4 (a b c d : Char) : Option Nat :=
  match digit2 a b, digit2 c d with
  | some hi, some lo => some (hi * 100 + lo)
  | _, _ => none

/-- Go time.Parse with layout 2006-01-02 15:04:05 applied to the date and time
halves of a log line: fixed-width digit fields with the literal separators,
and range validation of month, day (against the month length), hour, minute
and second. -/
def goParseDateTime (d t : String) : Option DateTime :=
  match d.data, t.data with
  | [y1, y2, y3, y4, c1, m1, m2, c2, d1, d2], [h1, h2, c3, n1, n2, c4, s1, s2] =>
    if c1 = '-' ∧ c2 = '-' ∧ c3 = ':' ∧ c4 = ':' then
      match digit4 y1 y2 y3 y4, digit2 m1 m2, digit2 d1 d2,
            digit2 h1 h2, digit2 n1 n2, digit2 s1 s2 with
      | some yr, some mo, some da, some hh, some mi, some ss =>
        if 1 ≤ mo ∧ mo ≤ 12 ∧ 1 ≤ da ∧ da ≤ daysInMonth yr mo
            ∧ hh ≤ 23 ∧ mi ≤ 59 ∧ ss ≤ 59 then
          some ⟨yr, mo, da, hh, mi, ss⟩
        else none
      | _, _, _, _, _, _ => none
    else none
  | _, _ => none

/-- Log severity (logs.go LogLevel). -/
inductive LogLevel where
  | debug : LogLevel
  | info : LogLevel
  | warning : LogLevel
  | error : LogLevel
deriving DecidableEq

/-- Structured log record (logs.go LogEntry); the time of an unstructured
line is the now argument of parseLine. -/
structure LogEntry where
  time : DateTime
  level : LogLevel
  message : String
  raw : String
deriving DecidableEq

/-- Level-word mapping of parseLine: the word is uppercased and compared
against the known level names, everything else stays info. -/
def levelOfWord (w : String) : LogLevel :=
  match goToUpper w with
  | "DEBUG" => .debug
  | "INFO" => .info
  | "WARNING" => .warning
  | "WARN" => .warning
  | "ERROR" => .error
  | _ => .info

/-- logs.go parseLine: split into at most four space-separated parts; with a
10-byte date, an 8-byte time that parse under the log layout, the entry
carries the timestamp, the bracket-trimmed third part mapped to a level, and
the fourth part as message; otherwise the whole line is the message at level
info with the current time. -/
def parseLine (now : DateTime) (line : String) : LogEntry :=
  if line = "" then ⟨now, .info, "", line⟩
  else
    match goSplitN line " " 4 with
    | [d, t, lvl, msg] =>
      if goByteLen d.data = 10 ∧ goByteLen t.data = 8 then
        match goParseDateTime d t with
        | some ts => ⟨ts, levelOfWord (goTrimCut lvl ['[', ']']), msg, line⟩
        | none => ⟨now, .info, line, line⟩
      else ⟨now, .info, line, line⟩
    | _ => ⟨now, .info, line, line⟩

/-- Acceptance condition of the structured branch of parseLine (four parts,
field widths, valid timestamp), factored for stating the fallback case. -/
def codeStructured (line : String) : Bool :=
  match goSplitN line " " 4 with
  | [d, t, _, _] =>
    decide (goByteLen d.data = 10) && decide (goByteLen t.data = 8)
      && (goParseDateTime d t).isSome
  | _ => false

/-- Modelled from the spec: the line shape named by the claim, with the level
word enclosed in literal brackets. -/
def claimShapedLine (line : String) : Bool :=
  match goSplitN line " " 4 with
  | [d, t, lvl, _] =>
    decide (goByteLen d.data = 10) && decide (goByteLen t.data = 8)
      && (goParseDateTime d t).isSome
      && goHasPre lvl "[" && lvl.endsWith "]"
  | _ => false

/-! Embedding of the two portal release-selection paths. -/

/-- Release record decoded by mods.go downloadFromPortal (with the nested
info_json.factorio_version field). -/
structure PortalRelease where
  downloadURL : String
  version : String
  factorioVersion : String
deriving DecidableEq

/-- mods.go downloadFromPortal selection: scan the releases from the last
(newest) to the first, stop at the first engine-compatible one, and fall back
to the last release when none is compatible. -/
def selectReleasePortal (instVersion : String) (rs : List PortalRelease) : Option PortalRelease :=
  match rs.reverse.find? (fun r => isVersionCompatible instVersion r.factorioVersion) with
  | some r => some r
  | none => rs.getLast?

/-- Release record decoded by resolve/portal.go (no engine-version field is
decoded there). -/
structure FetcherRelease where
  version : String
  downloadURL : String
  sha1 : String
deriving DecidableEq

/-- resolve/portal.go PortalFetcher.Fetch selection: after the nonempty check,
always the last listed release. -/
def portalFetcherSelect (rs : List FetcherRelease) : Option FetcherRelease :=
  rs.getLast?

/-! Embedding of internal/instance/runtime.go process supervision.  All map
operations in the source run under the manager mutex, so they are modelled as
atomic steps on the name-keyed record map (records are opaque handles). -/

/-- Supervisor process map: names paired with opaque process records. -/
abbrev ProcMap := List (String × Nat)

/-- runtime.go IsRunning: a record for the name exists. -/
def supIsRunning (m : ProcMap) (n : String) : Bool := (m.lookup n).isSome

/-- runtime.go ListRunning: the names holding records. -/
def supListRunning (m : ProcMap) : List String := m.map Prod.fst

/-- Atomic supervisor transitions: Start inserts a record only when the name
has none (otherwise it errors and the map is unchanged); the background
waiter removes the record for the exited name.  Stop never edits the map. -/
inductive SupStep : ProcMap → ProcMap → Prop where
  | start (m : ProcMap) (name : String) (pid : Nat) (h : m.lookup name = none) :
      SupStep m ((name, pid) :: m)
  | exit (m : ProcMap) (name : String) :
      SupStep m (m.eraseP (fun p => p.1 == name))

/-- States reachable from the empty map of NewRuntimeManager. -/
def SupReachable (m : ProcMap) : Prop := Relation.ReflTransGen SupStep [] m

/-! Embedding of internal/instance/logs.go RotateLogs.  The per-instance log
directory is modelled as a map from rotation index to file content: index 0
is the active log, index i is the rotated file log.i. -/

/-- Log directory state. -/
abbrev LogFs := Nat → Option (List Nat)

/-- os.Remove of a rotation slot (errors ignored by the source). -/
def fsRemove (i : Nat) (fs : LogFs) : LogFs :=
  fun n => if n = i then none else fs n

/-- os.Rename between rotation slots, a no-op when the source is absent
(the source ignores this error). -/
def fsRename (src dst : Nat) (fs : LogFs) : LogFs :=
  match fs src with
  | none => fs
  | some c => fun n => if n = dst then some c else if n = src then none else fs n

/-- The descending rename loop of RotateLogs: slot i moves to i+1 for i from
the given bound down to 1. -/
def rotateShift : Nat → LogFs → LogFs
  | 0, fs => fs
  | i + 1, fs => rotateShift i (fsRename (i + 1) (i + 2) fs)

/-- logs.go RotateLogs: absent log is a no-op; a log smaller than
maxFileSize is left alone; otherwise the oldest slot maxFiles is removed, the
slots maxFiles-1 down to 1 shift up by one, the active log becomes slot 1 and
a fresh empty log is written. -/
def rotateLogs (maxFileSize maxFiles : Nat) (fs : LogFs) : Except String LogFs :=
  match fs 0 with
  | none => .ok fs
  | some content =>
    if content.length < maxFileSize then .ok fs
    else
      let fs2 := if 1 ≤ maxFiles then rotateShift (maxFiles - 1) (fsRemove maxFiles fs) else fs
      match fs2 0 with
      | none => .error "rotating log file"
      | some cur => .ok (fun n => if n = 0 then some [] else if n = 1 then some cur else fs2 n)

/-! Embedding of the instance configuration (internal/instance/config.go)
and of the mod-list construction in Manager.Create.  The settings maps are
omitted: they carry the omitempty tag and are empty in every input
considered here, so Go drops them from the serialized form. -/

/-- config.go ModsConfig; the sources map is an association list whose keys
are sorted when serialized, as Go does for maps. -/
structure ModsConfig where
  enabled : List String
  sources : List (String × String)
deriving DecidableEq

/-- config.go ServerConfig. -/
structure ServerConfig where
  name : String
  maxPlayers : Int
  public : Bool
  password : String
  admins : List String
  autoSave : Bool
  autoSaveInterval : Int
deriving DecidableEq

/-- config.go Config. -/
structure Config where
  name : String
  version : String
  runtime : String
  port : Int
  headless : Bool
  saveFile : String
  mods : ModsConfig
  server : Option ServerConfig
deriving DecidableEq

/-- config.go ServerConfig.validate. -/
def serverValidate (s : ServerConfig) : Option String :=
  if s.name = "" then some "server name is required"
  else if s.maxPlayers < 1 then some "max_players must be at least 1"
  else if s.autoSave ∧ s.autoSaveInterval < 1 then
    some "auto_save_interval must be at least 1 minute"
  else none

/-- Built-in mod names (config.go validate, mods.go isBuiltinMod). -/
def builtinMods : List String := ["base", "elevated-rails", "quality", "space-age"]

/-- config.go Config.validate. -/
def configValidate (c : Config) : Option String :=
  if c.name = "" then some "instance name is required"
  else if c.version = "" then some "factorio version is required"
  else if (c.mods.enabled.filter (fun m => !builtinMods.contains m)) ≠ [] ∧ c.mods.sources = [] then
    some "mod sources are required for non-built-in mods"
  else
    match c.server with
    | some s => (serverValidate s).map (fun e => "invalid server config: " ++ e)
    | none => none

/-- Manager.Create mod-list construction: a base entry, then every enabled
mod other than base appended, each enabled. -/
def createModList (cfg : Config) : List (String × Bool) :=
  cfg.mods.enabled.foldl
    (fun acc m => if m ≠ "base" then acc ++ [(m, true)] else acc)
    [("base", true)]

/-! Embedding of Manager.RestoreBackup extraction.  Paths are modelled as
segment lists; the temporary directory is an absolute clean path given by its
segments.  filepath.Join cleans the joined path, so extraction targets are
computed with the lexical dot-dot semantics of Go path cleaning on an
absolute base. -/

/-- Segment of a clean absolute directory path: nonempty, not a dot entry,
and without separators. -/
def plainSeg (s : String) : Prop :=
  s ≠ "" ∧ s ≠ "." ∧ s ≠ ".." ∧ '/' ∉ s.data

/-- filepath.Join(tmpDir, filepath.FromSlash(name)) on a Unix host: the slash
segments of the entry name are folded over the base segments with Go
Clean semantics (empty and dot segments vanish, dot-dot pops, and popping
above the root stays at the root). -/
def absJoinSegs (tmp : List String) (name : String) : List String :=
  (goSplit name "/").foldl
    (fun acc seg =>
      if seg = "" ∨ seg = "." then acc
      else if seg = ".." then acc.dropLast
      else acc ++ [seg]) tmp

/-- Length of the longest common segment prefix. -/
def commonPrefixLen : List String → List String → Nat
  | a :: as1, b :: bs1 => if a = b then 1 + commonPrefixLen as1 bs1 else 0
  | _, _ => 0

/-- filepath.Rel between two clean absolute segment paths: climb out of the
non-shared base segments, then descend into the target remainder. -/
def goRelSegs (base target : List String) : List String :=
  List.replicate (base.length - commonPrefixLen base target) ".."
    ++ target.drop (commonPrefixLen base target)

/-- Separator join of path segments. -/
def joinSegs : List String → String
  | [] => ""
  | [s] => s
  | s :: rest => s ++ ("/" ++ joinSegs rest)

/-- String form of filepath.Rel (a dot for identical paths). -/
def goRelString (base target : List String) : String :=
  match goRelSegs base target with
  | [] => "."
  | segs => joinSegs segs

/-- The RestoreBackup guard: the entry passes when the relative path from the
temporary directory to its join target does not start with dot-dot. -/
def restoreCheckOk (tmp : List String) (name : String) : Bool :=
  !(goHasPre (goRelString tmp (absJoinSegs tmp name)) "..")

/-- Tar entry kinds distinguished by the extraction switch. -/
inductive TarType where
  | dir : TarType
  | reg : TarType
  | other : TarType
deriving DecidableEq

/-- Tar entry of a backup archive (content is irrelevant to the claim). -/
structure TarEntry where
  name : String
  typ : TarType
deriving DecidableEq

/-- The extraction loop of RestoreBackup: entries are processed in order;
a failing guard stops everything with the invalid-path error, a passing
directory or regular-file entry is written at its join target, other entry
types are skipped.  The first component collects the written targets, the
second the error, if any. -/
def restoreExtract (tmp : List String) :
    List TarEntry → List (List String × TarType) × Option String
  | [] => ([], none)
  | e :: rest =>
    if restoreCheckOk tmp e.name then
      match e.typ with
      | .dir => ((absJoinSegs tmp e.name, TarType.dir) :: (restoreExtract tmp rest).1,
                  (restoreExtract tmp rest).2)
      | .reg => ((absJoinSegs tmp e.name, TarType.reg) :: (restoreExtract tmp rest).1,
                  (restoreExtract tmp rest).2)
      | .other => restoreExtract tmp rest
    else ([], some ("invalid file path in backup: " ++ e.name))

/-- Result of RestoreBackup: the instance directory is replaced (by renaming
the temporary directory) only when every entry was processed; otherwise the
error is returned and the partial writes stay inside the temporary
directory, which is removed by the deferred cleanup. -/
inductive RestoreOutcome where
  | replaced : List (List String × TarType) → RestoreOutcome
  | failed : String → List (List String × TarType) → RestoreOutcome
deriving DecidableEq

/-- Manager.RestoreBackup tail: extraction then rename on success. -/
def restoreBackup (tmp : List String) (entries : List TarEntry) : RestoreOutcome :=
  match restoreExtract tmp entries with
  | (ws, none) => .replaced ws
  | (ws, some e) => .failed e ws

/-! Embedding of internal/jsonc Parse (comment stripping) and of the JSON
serialization used by SaveConfig (encoding/json MarshalIndent). -/

/-- Line-comment pass of jsonc.Parse: each newline-separated line is cut at
the first occurrence of two slashes, wherever it is. -/
def jsoncStripLine (line : List Char) : List Char :=
  match findSubIdx ['/', '/'] line with
  | some i => line.take i
  | none => line

/-- bytes.Split on a single character. -/
def splitOnChar (c : Char) : List Char → List (List Char)
  | [] => [[]]
  | x :: rest =>
    if x = c then [] :: splitOnChar c rest
    else
      match splitOnChar c rest with
      | [] => [[x]]
      | h :: t => (x :: h) :: t

/-- Block-comment pass of jsonc.Parse: a slash-star opens a comment, a
star-slash closes one (and is consumed even outside a comment, as in the
source), and characters inside a comment are dropped. -/
def jsoncStripBlock : Bool → List Char → List Char
  | _, [] => []
  | ic, [c] => if ic then [] else [c]
  | ic, a :: b :: rest =>
    if a = '/' ∧ b = '*' then jsoncStripBlock true rest
    else if a = '*' ∧ b = '/' then jsoncStripBlock false rest
    else if ic then jsoncStripBlock ic (b :: rest)
    else a :: jsoncStripBlock ic (b :: rest)

/-- jsonc.Parse preprocessing: strip line comments, rejoin, strip block
comments.  The result is handed to encoding/json Unmarshal. -/
def jsoncStrip (s : String) : String :=
  ⟨jsoncStripBlock false
    (List.intercalate ['\n'] ((splitOnChar '\n' s.data).map jsoncStripLine))⟩

/-- Lowercase hexadecimal digit. -/
def hexDigitChar (n : Nat) : Char :=
  if n < 10 then Char.ofNat (48 + n) else Char.ofNat (87 + n)

/-- encoding/json string escaping (HTML escaping on, as in Marshal):
quote, backslash, the three HTML characters, control characters and the
Unicode line separators are escaped, everything else passes through. -/
def goJSONEscapeChar (c : Char) : List Char :=
  if c = '"' then ['\\', '"']
  else if c = '\\' then ['\\', '\\']
  else if c = '\n' then ['\\', 'n']
  else if c = '\r' then ['\\', 'r']
  else if c = '\t' then ['\\', 't']
  else if c.toNat < 0x20 then
    ['\\', 'u', '0', '0', hexDigitChar (c.toNat / 16), hexDigitChar (c.toNat % 16)]
  else if c = '<' then ['\\', 'u', '0', '0', '3', 'c']
  else if c = '>' then ['\\', 'u', '0', '0', '3', 'e']
  else if c = '&' then ['\\', 'u', '0', '0', '2', '6']
  else if c = Char.ofNat 0x2028 then ['\\', 'u', '2', '0', '2', '8']
  else if c = Char.ofNat 0x2029 then ['\\', 'u', '2', '0', '2', '9']
  else [c]

/-- JSON string literal for s. -/
def jstr (s : String) : String :=
  "\"" ++ ⟨(s.data.map goJSONEscapeChar).flatten⟩ ++ "\""

/-- Indentation prefix of MarshalIndent with two-space indent at depth d. -/
def jind (d : Nat) : String := ⟨List.replicate (2 * d) ' '⟩

/-- MarshalIndent of a []string at depth d; the zero value (no elements) is
rendered as the Go nil slice, null. -/
def marshalStrList (d : Nat) (xs : List String) : String :=
  match xs with
  | [] => "null"
  | _ =>
    "[\n" ++ String.intercalate ",\n" (xs.map (fun x => jind (d + 1) ++ jstr x))
      ++ "\n" ++ jind d ++ "]"

/-- Ordered insertion of a key-value pair by key. -/
def insertSortedKV (kv : String × String) : List (String × String) → List (String × String)
  | [] => [kv]
  | x :: rest => if kv.1 ≤ x.1 then kv :: x :: rest else x :: insertSortedKV kv rest

/-- Key order of Go map serialization (insertion sort by key). -/
def sortByKey : List (String × String) → List (String × String)
  | [] => []
  | x :: rest => insertSortedKV x (sortByKey rest)

/-- MarshalIndent of a map[string]string at depth d: keys sorted, nil (no
entries) rendered as null. -/
def marshalStrMap (d : Nat) (kvs : List (String × String)) : String :=
  match kvs with
  | [] => "null"
  | _ =>
    "\x7b\n" ++ String.intercalate ",\n"
        ((sortByKey kvs).map
          (fun kv => jind (d + 1) ++ jstr kv.1 ++ ": " ++ jstr kv.2))
      ++ "\n" ++ jind d ++ "\x7d"

/-- MarshalIndent of ModsConfig at depth d (enabled and sources have no
omitempty tag; empty settings are omitted). -/
def marshalModsConfig (d : Nat) (mc : ModsConfig) : String :=
  "\x7b\n" ++ jind (d + 1) ++ "\"enabled\": " ++ marshalStrList (d + 1) mc.enabled ++ ",\n"
    ++ jind (d + 1) ++ "\"sources\": " ++ marshalStrMap (d + 1) mc.sources ++ "\n"
    ++ jind d ++ "\x7d"

/-- MarshalIndent of ServerConfig at depth d with its omitempty fields. -/
def marshalServerConfig (d : Nat) (s : ServerConfig) : String :=
  "\x7b\n" ++ String.intercalate ",\n"
      (([some ("\"name\": " ++ jstr s.name),
         some ("\"max_players\": " ++ toString s.maxPlayers),
         some ("\"public\": " ++ (if s.public then "true" else "false")),
         (if s.password = "" then none else some ("\"password\": " ++ jstr s.password)),
         (if s.admins.isEmpty then none
          else some ("\"admins\": " ++ marshalStrList (d + 1) s.admins)),
         some ("\"auto_save\": " ++ (if s.autoSave then "true" else "false")),
         some ("\"auto_save_interval\": " ++ toString s.autoSaveInterval)].filterMap id).map
        (fun f => jind (d + 1) ++ f))
    ++ "\n" ++ jind d ++ "\x7d"

/-- SaveConfig serialization: json.MarshalIndent(c, two-space indent) with the
field order and omitempty tags of config.go Config. -/
def marshalConfig (c : Config) : String :=
  "\x7b\n" ++ String.intercalate ",\n"
      (([some ("\"name\": " ++ jstr c.name),
         some ("\"version\": " ++ jstr c.version),
         (if c.runtime = "" then none else some ("\"runtime\": " ++ jstr c.runtime)),
         (if c.port = 0 then none else some ("\"port\": " ++ toString c.port)),
         (if c.headless then some "\"headless\": true" else none),
         (if c.saveFile = "" then none else some ("\"save_file\": " ++ jstr c.saveFile)),
         some ("\"mods\": " ++ marshalModsConfig 1 c.mods),
         (c.server.map (fun s => "\"server\": " ++ marshalServerConfig 1 s))].filterMap id).map
        (fun f => "  " ++ f))
    ++ "\n\x7d"

/-! Syntax of RFC 8259 JSON as accepted by encoding/json Unmarshal, used to
decide whether LoadConfig can parse the stripped bytes at all. -/

/-- JSON whitespace. -/
def jsonWsChar (c : Char) : Bool := c = ' ' || c = '\t' || c = '\n' || c = '\r'

/-- Skip JSON whitespace. -/
def jsonSkipWs (s : List Char) : List Char := s.dropWhile jsonWsChar

/-- Hexadecimal digit test. -/
def isHexDigitChar (c : Char) : Bool :=
  goIsDigit c || ('a' ≤ c && c ≤ 'f') || ('A' ≤ c && c ≤ 'F')

/-- One or more decimal digits, returning the rest. -/
def jsonDigits1 : List Char → Option (List Char)
  | c :: r => if goIsDigit c then some (r.dropWhile goIsDigit) else none
  | [] => none

/-- Integer part of a JSON number: a single zero or a nonzero-led digit run. -/
def jsonIntPart : List Char → Option (List Char)
  | '0' :: r => some r
  | c :: r => if '1' ≤ c ∧ c ≤ '9' then some (r.dropWhile goIsDigit) else none
  | [] => none

/-- Optional fraction part. -/
def jsonFrac : List Char → Option (List Char)
  | '.' :: r => jsonDigits1 r
  | s => some s

/-- Optional exponent part. -/
def jsonExp : List Char → Option (List Char)
  | c :: r =>
    if c = 'e' ∨ c = 'E' then
      match r with
      | s2 :: r2 => if s2 = '+' ∨ s2 = '-' then jsonDigits1 r2 else jsonDigits1 (s2 :: r2)
      | [] => none
    else some (c :: r)
  | [] => some []

/-- JSON number (the caller has seen a leading minus or digit). -/
def jsonNumber (s : List Char) : Option (List Char) :=
  let core := match s with
    | '-' :: r => jsonIntPart r
    | _ => jsonIntPart s
  match core with
  | some r =>
    match jsonFrac r with
    | some r2 => jsonExp r2
    | none => none
  | none => none

mutual

/-- JSON value, fueled; consumes the value and returns the rest. -/
def jsonValue : Nat → List Char → Option (List Char)
  | 0, _ => none
  | fuel + 1, s =>
    match s with
    | 'n' :: 'u' :: 'l' :: 'l' :: rest => some rest
    | 't' :: 'r' :: 'u' :: 'e' :: rest => some rest
    | 'f' :: 'a' :: 'l' :: 's' :: 'e' :: rest => some rest
    | '"' :: rest => jsonStringBody fuel rest
    | '{' :: rest =>
      match jsonSkipWs rest with
      | '}' :: rest2 => some rest2
      | r => jsonMembers fuel r
    | '[' :: rest =>
      match jsonSkipWs rest with
      | ']' :: rest2 => some rest2
      | r => jsonElements fuel r
    | c :: rest =>
      if c = '-' ∨ goIsDigit c then jsonNumber (c :: rest) else none
    | [] => none

/-- JSON string body after the opening quote: no raw control characters, the
standard escapes and four-hex-digit unicode escapes. -/
def jsonStringBody : Nat → List Char → Option (List Char)
  | 0, _ => none
  | fuel + 1, s =>
    match s with
    | [] => none
    | '"' :: rest => some rest
    | '\\' :: e :: rest =>
      if e = '"' ∨ e = '\\' ∨ e = '/' ∨ e = 'b' ∨ e = 'f' ∨ e = 'n' ∨ e = 'r' ∨ e = 't' then
        jsonStringBody fuel rest
      else if e = 'u' then
        match rest with
        | a :: b :: c :: d :: rest2 =>
          if isHexDigitChar a && isHexDigitChar b && isHexDigitChar c && isHexDigitChar d then
            jsonStringBody fuel rest2
          else none
        | _ => none
      else none
    | c :: rest =>
      if c.toNat < 0x20 then none else jsonStringBody fuel rest

/-- Members of a nonempty JSON object, starting at a key. -/
def jsonMembers : Nat → List Char → Option (List Char)
  | 0, _ => none
  | fuel + 1, s =>
    match s with
    | '"' :: rest =>
      match jsonStringBody fuel rest with
      | some rest2 =>
        match jsonSkipWs rest2 with
        | ':' :: rest3 =>
          match jsonValue fuel (jsonSkipWs rest3) with
          | some rest4 =>
            match jsonSkipWs rest4 with
            | ',' :: rest5 => jsonMembers fuel (jsonSkipWs rest5)
            | '}' :: rest5 => some rest5
            | _ => none
          | none => none
        | _ => none
      | none => none
    | _ => none

/-- Elements of a nonempty JSON array, starting at a value. -/
def jsonElements : Nat → List Char → Option (List Char)
  | 0, _ => none
  | fuel + 1, s =>
    match jsonValue fuel s with
    | some rest =>
      match jsonSkipWs rest with
      | ',' :: rest2 => jsonElements fuel (jsonSkipWs rest2)
      | ']' :: rest2 => some rest2
      | _ => none
    | none => none

end

/-- Syntactic validity of a whole JSON document (one value surrounded by
whitespace), as encoding/json Unmarshal requires.  Every fueled call above
consumes at least one character first, so a fuel of length+1 never runs out
on accepted input. -/
def jsonValid (s : String) : Bool :=
  match jsonValue (s.data.length + 1) (jsonSkipWs s.data) with
  | some rest => (jsonSkipWs rest).isEmpty
  | none => false

/-! Supporting lemmas on byte lengths. -/

/-- Accepted name characters are ASCII and occupy one byte. -/
theorem utf8Size_of_allowed (c : Char) (h : isAllowedNameChar c = true) : c.utf8Size = 1 := by
  have hle : c.toNat ≤ 127 := by
    simp only [isAllowedNameChar, Bool.or_eq_true, Bool.and_eq_true, decide_eq_true_eq] at h
    rcases h with ((((⟨h1, h2⟩ | ⟨h1, h2⟩) | ⟨h1, h2⟩) | h1) | h1)
    · exact le_trans (Char.le_def.mp h2) (by decide)
    · exact le_trans (Char.le_def.mp h2) (by decide)
    · exact le_trans (Char.le_def.mp h2) (by decide)
    · subst h1; decide
    · subst h1; decide
  unfold Char.utf8Size
  have hv : c.val ≤ 0x7F := by
    rw [UInt32.le_def, BitVec.le_def]
    exact hle
  simp [hv]

/-- Character count never exceeds UTF-8 byte count. -/
theorem length_le_goByteLen (s : List Char) : s.length ≤ goByteLen s := by
  induction s with
  | nil => simp [goByteLen]
  | cons c rest ih =>
    have hpos : 1 ≤ c.utf8Size := Char.utf8Size_pos c
    simp only [goByteLen, List.map_cons, List.sum_cons, List.length_cons] at ih ⊢
    omega

/-- On strings of accepted characters the byte count is the character count. -/
theorem goByteLen_of_allowed (s : List Char) (h : ∀ c ∈ s, isAllowedNameChar c = true) :
    goByteLen s = s.length := by
  induction s with
  | nil => simp [goByteLen]
  | cons c rest ih =>
    have h1 := utf8Size_of_allowed c (h c (by simp))
    have h2 := ih (fun x hx => h x (by simp [hx]))
    simp only [goByteLen, List.map_cons, List.sum_cons, List.length_cons] at h2 ⊢
    omega

/-- C9: instance-name validation fails exactly on the empty name, a name of
more than 50 characters, or a name with a character outside the class of
letters, digits, hyphen and underscore; every other name is accepted. -/
theorem validateInstanceName_error_iff (name : String) :
    (validateInstanceName name).isSome = true ↔
      (name = "" ∨ 50 < name.length ∨ ∃ c ∈ name.data, isAllowedNameChar c = false) := by
  have hlen : name.length = name.data.length := rfl
  constructor
  · intro h
    by_cases he : name = ""
    · exact Or.inl he
    · have he' : name.isEmpty = false := by
        rw [Bool.eq_false_iff]
        intro hx
        exact he ((String.isEmpty_iff name).mp hx)
      by_cases hall : ∀ c ∈ name.data, isAllowedNameChar c = true
      · by_cases hb : 50 < goByteLen name.data
        · refine Or.inr (Or.inl ?_)
          rw [hlen, ← goByteLen_of_allowed name.data hall]
          exact hb
        · exfalso
          have hfind : name.data.find? (fun c => !isAllowedNameChar c) = none := by
            rw [List.find?_eq_none]
            intro c hc
            simp [hall c hc]
          simp [validateInstanceName, he', hb, hfind] at h
      · push_neg at hall
        obtain ⟨c, hc, hne⟩ := hall
        exact Or.inr (Or.inr ⟨c, hc, by simpa using hne⟩)
  · intro h
    rcases h with h | h | ⟨c, hc, hbad⟩
    · subst h; decide
    · have hb : 50 < goByteLen name.data :=
        lt_of_lt_of_le (hlen ▸ h) (length_le_goByteLen name.data)
      by_cases he : name.isEmpty
      · simp [validateInstanceName, he]
      · simp [validateInstanceName, he, hb]
    · by_cases he : name.isEmpty
      · simp [validateInstanceName, he]
      · by_cases hb : 50 < goByteLen name.data
        · simp [validateInstanceName, he, hb]
        · have : ∃ x, x ∈ name.data ∧ (!isAllowedNameChar x) = true := ⟨c, hc, by simp [hbad]⟩
          rw [← List.find?_isSome] at this
          cases hfind : name.data.find? (fun c => !isAllowedNameChar c) with
          | none => rw [hfind] at this; simp at this
          | some d => simp [validateInstanceName, he, hb, hfind]

/-- C9 witness: a 50-character name of accepted characters is accepted, a
51-character one is rejected. -/
theorem validateInstanceName_witness :
    (validateInstanceName ⟨List.replicate 50 'a'⟩).isSome = false
      ∧ (validateInstanceName ⟨List.replicate 51 'a'⟩).isSome = true := by
  constructor
  · have h := validateInstanceName_error_iff ⟨List.replicate 50 'a'⟩
    rw [Bool.eq_false_iff]
    intro hcontra
    rcases h.mp hcontra with h1 | h1 | ⟨c, hc, hbad⟩
    · exact absurd h1 (by decide)
    · exact absurd h1 (by decide)
    · rw [List.eq_of_mem_replicate hc] at hbad
      exact absurd hbad (by decide)
  · exact (validateInstanceName_error_iff ⟨List.replicate 51 'a'⟩).mpr (Or.inr (Or.inl (by decide)))

/-- C2 counterexample: the four-component engine version 1.1.0.0 is left
unchanged by normalization and agrees with 1.1 on the normalized major and
minor components, yet isVersionCompatible rejects the pair, because the
semver parser fails on four components. -/
theorem isVersionCompatible_counterexample :
    (goSplit (normalizeFactorioVersion "1.1.0.0") ".").take 2 =
        (goSplit (normalizeFactorioVersion "1.1") ".").take 2
      ∧ isVersionCompatible "1.1.0.0" "1.1" = false
      ∧ isVersionCompatible "1.1.0.0" "1.1.0.0" = false := by decide

/-- C2 (amended): isVersionCompatible f m is true exactly when both
normalized versions parse as strict semver and the parsed major and minor
components agree; in particular every pair on which either normalized side
fails the semver parse (such as any four-component version) is reported
incompatible, even when the normalized major and minor components agree. -/
theorem isVersionCompatible_amended (f m : String) :
    isVersionCompatible f m = true ↔
      ∃ fv mv : SemVer,
        semverParse (goTrimPre (normalizeFactorioVersion f) "v") = some fv
          ∧ semverParse (goTrimPre (normalizeFactorioVersion m) "v") = some mv
          ∧ fv.major = mv.major ∧ fv.minor = mv.minor := by
  unfold isVersionCompatible
  cases hf : semverParse (goTrimPre (normalizeFactorioVersion f) "v") with
  | none => simp [hf]
  | some fv0 =>
    cases hm : semverParse (goTrimPre (normalizeFactorioVersion m) "v") with
    | none => simp [hm]
    | some mv0 => simp [hf, hm]

/-- C2 witness: the amended characterization applied on both sides of the
divide: a parsing pair that is compatible, and a pair whose first side fails
the semver parse and is therefore incompatible. -/
theorem isVersionCompatible_witness :
    isVersionCompatible "1.1" "1.1.87" = true
      ∧ isVersionCompatible "1.1.0.0" "1.1" = false := by
  constructor
  · exact (isVersionCompatible_amended "1.1" "1.1.87").mpr
      ⟨⟨1, 1, 0, [], []⟩, ⟨1, 1, 87, [], []⟩, by decide, by decide, rfl, rfl⟩
  · rw [Bool.eq_false_iff]
    intro htrue
    obtain ⟨fv, mv, hf, hm, h1, h2⟩ := (isVersionCompatible_amended "1.1.0.0" "1.1").mp htrue
    rw [show semverParse (goTrimPre (normalizeFactorioVersion "1.1.0.0") "v") = none from
      by decide] at hf
    exact Option.noConfusion hf

/-- C3 counterexample: an optional dependency line is filtered from the BFS
queue, but the direct-source path of installDependency turns it into a
portal install attempt instead of skipping it. -/
theorem installDependency_counterexample :
    depLineFiltered "?foo" = true
      ∧ getModDependencies ["?foo"] = []
      ∧ installDependencyAction [] "?foo" = DepAction.install "portal:?foo" := by decide

/-- The field accumulator always emits the pending characters first. -/
theorem goFieldsCore_acc (rest : List Char) (acc : List Char) (hne : acc ≠ []) :
    ∃ ext rs, goFieldsCore rest acc = (acc.reverse ++ ext) :: rs := by
  induction rest generalizing acc with
  | nil =>
    refine ⟨[], [], ?_⟩
    simp [goFieldsCore, hne]
  | cons x xs ih =>
    by_cases hx : goIsSpace x = true
    · refine ⟨[], goFieldsCore xs [], ?_⟩
      simp [goFieldsCore, hx, hne]
    · obtain ⟨ext, rs, hih⟩ := ih (x :: acc) (by simp)
      refine ⟨x :: ext, rs, ?_⟩
      rw [show goFieldsCore (x :: xs) acc = goFieldsCore xs (x :: acc) from by
        simp [goFieldsCore, hx]]
      rw [hih]
      simp

/-- A line starting with a non-space character has a first field starting
with that character. -/
theorem goFields_head_char (dep : String) (c : Char) (tl : List Char)
    (hdata : dep.data = c :: tl) (hns : goIsSpace c = false) :
    ∃ ext rs, goFields dep = String.mk (c :: ext) :: rs := by
  unfold goFields
  rw [hdata]
  rw [show goFieldsCore (c :: tl) [] = goFieldsCore tl [c] from by simp [goFieldsCore, hns]]
  obtain ⟨ext, rs, h⟩ := goFieldsCore_acc tl [c] (by simp)
  rw [h]
  exact ⟨ext, rs.map (fun l => String.mk l), by simp⟩

/-- C3 (amended): lines carrying a skip marker or beginning with base never
contribute a name to the BFS install queue built by getModDependencies.
The recursive direct-source path, however, skips exactly the lines whose
first whitespace field is base or an already installed mod; in particular
every marker-prefixed line whose first field is not already installed
proceeds to a portal install attempt instead of being skipped. -/
theorem getModDependencies_amended (deps installed : List String) (dep : String) :
    getModDependencies deps = getModDependencies (deps.filter (fun d => !depLineFiltered d))
      ∧ (installDependencyAction installed dep = .skip ↔
          (∃ h rest, goFields dep = h :: rest ∧ (h = "base" ∨ h ∈ installed)))
      ∧ ((goHasPre dep "?" = true ∨ goHasPre dep "!" = true ∨ goHasPre dep "(?)" = true) →
          ∀ h rest, goFields dep = h :: rest → h ∉ installed →
            installDependencyAction installed dep
              = .install ("portal:" ++ h ++ (if 1 < rest.length then "@" ++ rest.getD 1 "" else ""))) := by
  refine ⟨?_, ?_, ?_⟩
  · induction deps with
    | nil => rfl
    | cons d rest ih =>
      simp only [getModDependencies] at ih ⊢
      by_cases h : depLineFiltered d = true
      · have hfd : (if depLineFiltered d = true then none else depLineName d) = none := by
          simp [h]
        have hfilter : List.filter (fun d => !depLineFiltered d) (d :: rest)
            = List.filter (fun d => !depLineFiltered d) rest := by
          simp [List.filter_cons, h]
        rw [hfilter, List.filterMap_cons, hfd]
        exact ih
      · rw [Bool.not_eq_true] at h
        have hfilter : List.filter (fun d => !depLineFiltered d) (d :: rest)
            = d :: List.filter (fun d => !depLineFiltered d) rest := by
          simp [List.filter_cons, h]
        rw [hfilter, List.filterMap_cons, List.filterMap_cons]
        cases hfd : (if depLineFiltered d = true then none else depLineName d) with
        | none => exact ih
        | some v => rw [ih]
  · unfold installDependencyAction
    cases hf : goFields dep with
    | nil =>
      constructor
      · intro hcontra
        exact absurd hcontra (by simp)
      · rintro ⟨h1, r1, hcons, -⟩
        exact List.noConfusion hcons
    | cons h1 r1 =>
      show (if h1 = "base" then DepAction.skip
          else if installed.contains h1 = true then DepAction.skip
          else DepAction.install
            ("portal:" ++ h1 ++ if 1 < r1.length then "@" ++ r1.getD 1 "" else ""))
          = DepAction.skip
        ↔ ∃ h rest, h1 :: r1 = h :: rest ∧ (h = "base" ∨ h ∈ installed)
      by_cases hb : h1 = "base"
      · rw [if_pos hb]
        simp only [true_iff]
        exact ⟨h1, r1, rfl, Or.inl hb⟩
      · rw [if_neg hb]
        by_cases hin : installed.contains h1 = true
        · rw [if_pos hin]
          simp only [true_iff]
          exact ⟨h1, r1, rfl, Or.inr (by simpa using hin)⟩
        · rw [if_neg hin]
          constructor
          · intro hcontra
            exact absurd hcontra (by simp)
          · rintro ⟨h2, r2, hcons, hor⟩
            obtain ⟨rfl, rfl⟩ : h1 = h2 ∧ r1 = r2 := by
              constructor <;> [exact (List.cons.injEq _ _ _ _ ▸ hcons).1;
                exact (List.cons.injEq _ _ _ _ ▸ hcons).2]
            rcases hor with hc | hc
            · exact absurd hc hb
            · exact absurd hc (by simpa using hin)
  · intro hmark h rest hfields hnotin
    have hhead : ∃ c tl, dep.data = c :: tl ∧ goIsSpace c = false ∧ c ≠ 'b' := by
      rcases hmark with hq | he | hp
      · unfold goHasPre at hq
        cases hdd : dep.data with
        | nil => rw [hdd] at hq; exact absurd hq (by decide)
        | cons c tl =>
          rw [hdd] at hq
          have : ('?' : Char) = c := by
            have := List.isPrefixOf_iff_prefix.mp hq
            rcases this with ⟨s, hs⟩
            exact (List.cons.injEq _ _ _ _ ▸ hs.symm).1.symm ▸ rfl
          exact ⟨c, tl, rfl, by rw [← this]; decide, by rw [← this]; decide⟩
      · unfold goHasPre at he
        cases hdd : dep.data with
        | nil => rw [hdd] at he; exact absurd he (by decide)
        | cons c tl =>
          rw [hdd] at he
          have : ('!' : Char) = c := by
            have := List.isPrefixOf_iff_prefix.mp he
            rcases this with ⟨s, hs⟩
            exact (List.cons.injEq _ _ _ _ ▸ hs.symm).1.symm ▸ rfl
          exact ⟨c, tl, rfl, by rw [← this]; decide, by rw [← this]; decide⟩
      · unfold goHasPre at hp
        cases hdd : dep.data with
        | nil => rw [hdd] at hp; exact absurd hp (by decide)
        | cons c tl =>
          rw [hdd] at hp
          have : ('(' : Char) = c := by
            have := List.isPrefixOf_iff_prefix.mp hp
            rcases this with ⟨s, hs⟩
            exact (List.cons.injEq _ _ _ _ ▸ hs.symm).1.symm ▸ rfl
          exact ⟨c, tl, rfl, by rw [← this]; decide, by rw [← this]; decide⟩
    obtain ⟨c, tl, hdata, hns, hcb⟩ := hhead
    obtain ⟨ext, rs, hf2⟩ := goFields_head_char dep c tl hdata hns
    rw [hfields] at hf2
    have hh : h = String.mk (c :: ext) := (List.cons.injEq _ _ _ _ ▸ hf2).1
    have hbase : h ≠ "base" := by
      rw [hh]
      intro heq
      have hdq := congrArg String.data heq
      simp only [] at hdq
      have : c = 'b' := (List.cons.injEq _ _ _ _ ▸ hdq).1
      exact hcb this
    unfold installDependencyAction
    rw [hfields]
    show (if h = "base" then DepAction.skip
        else if installed.contains h = true then DepAction.skip
        else DepAction.install
          ("portal:" ++ h ++ if 1 < rest.length then "@" ++ rest.getD 1 "" else ""))
        = DepAction.install ("portal:" ++ h ++ if 1 < rest.length then "@" ++ rest.getD 1 "" else "")
    rw [if_neg hbase]
    rw [if_neg (by simpa using hnotin)]

/-- C3 witness: the marker line of the counterexample settled through the
amended statement: an optional-marker line becomes a portal install
attempt. -/
theorem getModDependencies_witness :
    installDependencyAction [] "?foo" = DepAction.install "portal:?foo" := by
  have h := (getModDependencies_amended [] [] "?foo").2.2 (Or.inl (by decide))
    "?foo" [] (by decide) (by decide)
  rw [show ("portal:" ++ "?foo" ++ (if 1 < ([] : List String).length
      then "@" ++ ([] : List String).getD 1 "" else "")) = "portal:?foo" from by decide] at h
  exact h

/-- A successful find? splits the list at the first satisfying element. -/
theorem find?_split {α : Type} {p : α → Bool} {l : List α} {a : α}
    (h : l.find? p = some a) :
    ∃ pre post, l = pre ++ a :: post ∧ (∀ x ∈ pre, p x = false) ∧ p a = true := by
  induction l with
  | nil => simp at h
  | cons b rest ih =>
    by_cases hb : p b = true
    · rw [List.find?_cons_of_pos _ hb] at h
      obtain rfl : b = a := by simpa using h
      exact ⟨[], rest, rfl, by simp, hb⟩
    · rw [Bool.not_eq_true] at hb
      rw [List.find?_cons_of_neg _ (by simp [hb])] at h
      obtain ⟨pre, post, hsplit, hpre, hp⟩ := ih h
      exact ⟨b :: pre, post, by simp [hsplit], by
        intro x hx
        rcases List.mem_cons.mp hx with rfl | hx
        · exact hb
        · exact hpre x hx, hp⟩

/-- C1 counterexample: the portal declares two releases, the older one for
engine 1.1 and the newest for engine 2.0.  Fetching for an instance on 1.1,
the generic portal fetcher selects the newest release even though its
declared engine version is incompatible and a compatible release exists,
while the instance-context path selects the compatible one. -/
theorem portalFetcherSelect_counterexample :
    isVersionCompatible "1.1" "1.1" = true
      ∧ isVersionCompatible "1.1" "2.0" = false
      ∧ portalFetcherSelect [⟨"0.5", "u1", "s1"⟩, ⟨"1.0", "u2", "s2"⟩] = some ⟨"1.0", "u2", "s2"⟩
      ∧ selectReleasePortal "1.1" [⟨"u1", "0.5", "1.1"⟩, ⟨"u2", "1.0", "2.0"⟩]
          = some ⟨"u1", "0.5", "1.1"⟩ := by decide

/-- C1 (amended): the instance-context portal path selects, scanning from
the newest release backwards, a compatible release whenever one exists and
otherwise the newest; the generic portal fetcher always selects the
last-listed release, without any compatibility scan. -/
theorem selectReleasePortal_amended (v : String) (rs : List PortalRelease) :
    ((∃ r pre post, selectReleasePortal v rs = some r
        ∧ rs = pre ++ r :: post
        ∧ isVersionCompatible v r.factorioVersion = true
        ∧ ∀ x ∈ post, isVersionCompatible v x.factorioVersion = false)
      ∨ ((∀ x ∈ rs, isVersionCompatible v x.factorioVersion = false)
          ∧ selectReleasePortal v rs = rs.getLast?))
    ∧ ∀ fs : List FetcherRelease, portalFetcherSelect fs = fs.getLast? := by
  refine ⟨?_, fun fs => rfl⟩
  cases hf : rs.reverse.find? (fun r => isVersionCompatible v r.factorioVersion) with
  | some r =>
    left
    obtain ⟨pre, post, hsplit, hpre, hp⟩ := find?_split hf
    refine ⟨r, post.reverse, pre.reverse, ?_, ?_, hp, ?_⟩
    · unfold selectReleasePortal
      rw [hf]
    · have : rs.reverse.reverse = (pre ++ r :: post).reverse := by rw [hsplit]
      simpa using this
    · intro x hx
      exact hpre x (List.mem_reverse.mp hx)
  | none =>
    right
    have hall := List.find?_eq_none.mp hf
    constructor
    · intro x hx
      have := hall x (List.mem_reverse.mpr hx)
      simpa using this
    · unfold selectReleasePortal
      rw [hf]

/-- C1 witness: the amended selection statement applied to a one-release
list whose declared engine version is compatible. -/
theorem selectReleasePortal_witness :
    ((∃ r pre post, selectReleasePortal "1.1" [⟨"u1", "0.5", "1.1"⟩] = some r
        ∧ ([⟨"u1", "0.5", "1.1"⟩] : List PortalRelease) = pre ++ r :: post
        ∧ isVersionCompatible "1.1" r.factorioVersion = true
        ∧ ∀ x ∈ post, isVersionCompatible "1.1" x.factorioVersion = false)
      ∨ ((∀ x ∈ ([⟨"u1", "0.5", "1.1"⟩] : List PortalRelease),
            isVersionCompatible "1.1" x.factorioVersion = false)
          ∧ selectReleasePortal "1.1" [⟨"u1", "0.5", "1.1"⟩]
              = ([⟨"u1", "0.5", "1.1"⟩] : List PortalRelease).getLast?)) :=
  (selectReleasePortal_amended "1.1" [⟨"u1", "0.5", "1.1"⟩]).1

/-! Rotation-loop lemmas. -/

/-- Slots outside the rename range (the active log and everything above the
highest destination) are untouched by the shift loop. -/
theorem rotateShift_outside (k : Nat) (fs : LogFs) (n : Nat)
    (h : n = 0 ∨ k + 2 ≤ n) : rotateShift k fs n = fs n := by
  induction k generalizing fs with
  | zero => rfl
  | succ k ih =>
    have hstep : rotateShift (k + 1) fs = rotateShift k (fsRename (k + 1) (k + 2) fs) := rfl
    rw [hstep, ih _ (by omega)]
    unfold fsRename
    cases hsrc : fs (k + 1) with
    | none => rfl
    | some c =>
      have h1 : n ≠ k + 2 := by omega
      have h2 : n ≠ k + 1 := by omega
      simp [h1, h2]

/-- When the top destination slot is clear, the shift loop moves every slot
in range up by one. -/
theorem rotateShift_shift (k : Nat) (fs : LogFs) (hclear : fs (k + 1) = none) :
    ∀ n, 2 ≤ n → n ≤ k + 1 → rotateShift k fs n = fs (n - 1) := by
  induction k generalizing fs with
  | zero => intro n h2 h1; omega
  | succ k ih =>
    intro n h2 hle
    have hstep : rotateShift (k + 1) fs = rotateShift k (fsRename (k + 1) (k + 2) fs) := rfl
    have hg : fsRename (k + 1) (k + 2) fs (k + 1) = none := by
      unfold fsRename
      cases hsrc : fs (k + 1) with
      | none => exact hsrc
      | some c => simp
    have hclear' : fs (k + 2) = none := by
      rw [show k + 2 = k + 1 + 1 by omega]
      exact hclear
    by_cases hn : n = k + 2
    · subst hn
      rw [hstep, rotateShift_outside k _ _ (by omega)]
      rw [show k + 2 - 1 = k + 1 by omega]
      unfold fsRename
      cases hsrc : fs (k + 1) with
      | none =>
        simpa using hclear'
      | some c =>
        simp [hsrc]
    · have hle' : n ≤ k + 1 := by omega
      rw [hstep, ih _ hg n h2 hle']
      unfold fsRename
      cases hsrc : fs (k + 1) with
      | none => rfl
      | some c =>
        have h1 : n - 1 ≠ k + 2 := by omega
        have h2' : n - 1 ≠ k + 1 := by omega
        simp [h1, h2']

/-- Concrete log directory for the rotation scenario: a single active log of
exactly three bytes. -/
def c6fs : LogFs := fun n => if n = 0 then some [1, 2, 3] else none

/-- C6 counterexample: with max_file_size 3 and an active log of exactly 3
bytes, RotateLogs does rotate (the log becomes log.1 and a fresh empty log
appears), contradicting the claim that an exactly-max-size log is left
alone. -/
theorem rotateLogs_counterexample :
    c6fs 0 = some [1, 2, 3]
      ∧ (rotateLogs 3 5 c6fs).toOption.map (fun g => (g 0, g 1))
          = some (some [], some [1, 2, 3]) := by
  exact ⟨rfl, rfl⟩

/-- C6 (amended): rotation triggers exactly when the size reaches
max_file_size (a strictly smaller log is left alone; an equal or larger one
rotates); on rotation the oldest slot is dropped, slot N-1 moves to N for N
down to 2, the active log becomes log.1 and a fresh empty log is created,
with slots above max_files untouched. -/
theorem rotateLogs_amended (maxFileSize maxFiles : Nat) (fs : LogFs) (content : List Nat)
    (hc : fs 0 = some content) (hmf : 1 ≤ maxFiles) :
    (content.length < maxFileSize → rotateLogs maxFileSize maxFiles fs = .ok fs)
      ∧ (maxFileSize ≤ content.length →
          ∃ fs2, rotateLogs maxFileSize maxFiles fs = .ok fs2
            ∧ fs2 0 = some []
            ∧ fs2 1 = some content
            ∧ (∀ n, 2 ≤ n → n ≤ maxFiles → fs2 n = fs (n - 1))
            ∧ (∀ n, maxFiles < n → fs2 n = fs n)) := by
  have hrm : fsRemove maxFiles fs 0 = some content := by
    unfold fsRemove
    have : (0 : Nat) ≠ maxFiles := by omega
    simp [this, hc]
  have h0 : rotateShift (maxFiles - 1) (fsRemove maxFiles fs) 0 = some content := by
    rw [rotateShift_outside _ _ _ (Or.inl rfl)]
    exact hrm
  constructor
  · intro hlt
    unfold rotateLogs
    rw [hc]
    simp [hlt]
  · intro hge
    have hnlt : ¬ content.length < maxFileSize := by omega
    unfold rotateLogs
    rw [hc]
    simp only [hnlt, if_false, hmf, if_true, h0]
    refine ⟨_, rfl, by simp, by simp, ?_, ?_⟩
    · intro n h2 hle
      have hn0 : n ≠ 0 := by omega
      have hn1 : n ≠ 1 := by omega
      simp only [hn0, hn1, if_false]
      have hclear : fsRemove maxFiles fs ((maxFiles - 1) + 1) = none := by
        unfold fsRemove
        simp [show maxFiles - 1 + 1 = maxFiles by omega]
      rw [rotateShift_shift _ _ hclear n h2 (by omega)]
      unfold fsRemove
      have : n - 1 ≠ maxFiles := by omega
      simp [this]
    · intro n hgt
      have hn0 : n ≠ 0 := by omega
      have hn1 : n ≠ 1 := by omega
      simp only [hn0, hn1, if_false]
      rw [rotateShift_outside _ _ _ (Or.inr (by omega))]
      unfold fsRemove
      have : n ≠ maxFiles := by omega
      simp [this]

/-- C6 witness: the amended rotation statement applied to the exact-size
scenario (size three at threshold three, five rotated slots). -/
theorem rotateLogs_witness :
    ∃ fs2, rotateLogs 3 5 c6fs = .ok fs2
      ∧ fs2 0 = some []
      ∧ fs2 1 = some [1, 2, 3]
      ∧ (∀ n, 2 ≤ n → n ≤ 5 → fs2 n = c6fs (n - 1))
      ∧ (∀ n, 5 < n → fs2 n = c6fs n) :=
  (rotateLogs_amended 3 5 c6fs [1, 2, 3] rfl (by decide)).2 (by decide)

/-! Supervisor-map lemmas. -/

/-- A lookup succeeds exactly when the name is in the key list. -/
theorem lookup_isSome_iff_mem (m : ProcMap) (n : String) :
    (m.lookup n).isSome = true ↔ n ∈ m.map Prod.fst := by
  induction m with
  | nil => simp
  | cons p rest ih =>
    obtain ⟨a, b⟩ := p
    by_cases h : n = a
    · subst h
      simp [List.lookup]
    · have hne : (n == a) = false := by simp [h]
      simp [List.lookup, hne, ih, h]

/-- Preservation of key uniqueness by one supervisor step. -/
theorem supStep_nodup {m m2 : ProcMap} (hstep : SupStep m m2)
    (ih : (supListRunning m).Nodup) : (supListRunning m2).Nodup := by
  cases hstep with
  | start name pid hnone =>
    simp only [supListRunning, List.map_cons, List.nodup_cons]
    refine ⟨?_, ih⟩
    intro hmem
    have hsome := (lookup_isSome_iff_mem m name).mpr hmem
    rw [hnone] at hsome
    simp at hsome
  | exit name =>
    have hsub : List.Sublist ((m.eraseP (fun p => p.1 == name)).map Prod.fst)
        (m.map Prod.fst) :=
      (List.eraseP_sublist m).map Prod.fst
    exact List.Nodup.sublist hsub ih

/-- C5: in every supervisor state reachable from the empty map, there is at
most one process record per instance name, and IsRunning, the existence of a
record, and membership in ListRunning agree for every name.  The invariant
is preserved by Start (which refuses names holding a record), by Stop (which
does not edit the map) and by the waiter removal. -/
theorem supervisor_invariant (m : ProcMap) (h : SupReachable m) :
    (supListRunning m).Nodup
      ∧ ∀ n, (supIsRunning m n = true ↔ (∃ p, m.lookup n = some p))
          ∧ (supIsRunning m n = true ↔ n ∈ supListRunning m) := by
  refine ⟨?_, fun n => ⟨?_, ?_⟩⟩
  · induction h with
    | refl => simp [supListRunning]
    | tail hsteps hstep ih => exact supStep_nodup hstep ih
  · simp only [supIsRunning]
    exact Option.isSome_iff_exists
  · exact lookup_isSome_iff_mem m n

/-- C5 witness: the invariant applied to the state reached by one successful
Start of the instance named srv. -/
theorem supervisor_invariant_witness :
    (supListRunning [("srv", 1)]).Nodup
      ∧ ∀ n, (supIsRunning [("srv", 1)] n = true ↔ (∃ p, List.lookup n [("srv", 1)] = some p))
          ∧ (supIsRunning [("srv", 1)] n = true ↔ n ∈ supListRunning [("srv", 1)]) :=
  supervisor_invariant [("srv", 1)]
    (Relation.ReflTransGen.single (SupStep.start [] "srv" 1 rfl))

/-- Closed form of the mod-list fold in Manager.Create. -/
theorem createModList_eq_aux (l : List String) (acc : List (String × Bool)) :
    l.foldl (fun acc m => if m ≠ "base" then acc ++ [(m, true)] else acc) acc
      = acc ++ (l.filter (fun m => m != "base")).map (fun m => (m, true)) := by
  induction l generalizing acc with
  | nil => simp
  | cons a rest ih =>
    by_cases h : a = "base"
    · subst h
      have hstep : (if ("base" : String) ≠ "base" then acc ++ [("base", true)] else acc)
          = acc := by simp
      rw [List.foldl_cons, hstep, ih]
      simp [List.filter_cons]
    · have h1 : (a != "base") = true := by simp [h]
      simp only [List.foldl_cons, List.filter_cons, h1, if_true, ne_eq, h,
        not_false_eq_true, List.map_cons, if_pos]
      rw [ih]
      simp

/-- The concrete valid configuration used against C8: two enabled mods with
one configured source, as in the repository's own creation test. -/
def c8cfg : Config :=
  { name := "srv", version := "1.1.87", runtime := "", port := 0, headless := false,
    saveFile := "",
    mods := { enabled := ["base", "mod1"], sources := [("mod1", "portal:mod1@^1.0.0")] },
    server := none }

/-- C8 counterexample: for a valid configuration enabling mod1, the
mod-list written by Create holds two entries, not the single base entry the
claim demands. -/
theorem createModList_counterexample :
    configValidate c8cfg = none
      ∧ createModList c8cfg = [("base", true), ("mod1", true)]
      ∧ createModList c8cfg ≠ [("base", true)] := by decide

/-- C8 (amended): immediately after Create the mod-list starts with an
enabled base entry, followed by exactly the non-base names of mods.enabled,
each enabled; it is the single base entry precisely when mods.enabled has no
other name. -/
theorem createModList_amended (cfg : Config) :
    (createModList cfg).head? = some ("base", true)
      ∧ (∀ nm b, ((nm, b) ∈ createModList cfg ↔
          ((nm = "base" ∧ b = true) ∨ (nm ∈ cfg.mods.enabled ∧ nm ≠ "base" ∧ b = true))))
      ∧ (createModList cfg = [("base", true)] ↔ ∀ nm ∈ cfg.mods.enabled, nm = "base") := by
  have hform : createModList cfg
      = ("base", true) :: (cfg.mods.enabled.filter (fun m => m != "base")).map
          (fun m => (m, true)) := by
    unfold createModList
    rw [createModList_eq_aux]
    rfl
  refine ⟨by rw [hform]; rfl, ?_, ?_⟩
  · intro nm b
    rw [hform]
    simp only [List.mem_cons, List.mem_map, List.mem_filter, Prod.mk.injEq, bne_iff_ne, ne_eq]
    constructor
    · rintro (⟨rfl, rfl⟩ | ⟨x, ⟨hx, hne⟩, rfl, rfl⟩)
      · exact Or.inl ⟨rfl, rfl⟩
      · exact Or.inr ⟨hx, hne, rfl⟩
    · rintro (⟨rfl, rfl⟩ | ⟨hmem, hne, rfl⟩)
      · exact Or.inl ⟨rfl, rfl⟩
      · exact Or.inr ⟨nm, ⟨hmem, hne⟩, rfl, rfl⟩
  · rw [hform]
    constructor
    · intro hsingle nm hmem
      have : (cfg.mods.enabled.filter (fun m => m != "base")).map (fun m => (m, true)) = [] := by
        simpa using hsingle
      rw [List.map_eq_nil_iff, List.filter_eq_nil_iff] at this
      by_contra hne
      exact absurd (by simp [hne] : (nm != "base") = true) (by simpa using this nm hmem)
    · intro hall
      have : cfg.mods.enabled.filter (fun m => m != "base") = [] := by
        rw [List.filter_eq_nil_iff]
        intro a ha
        simp [hall a ha]
      simp [this]

/-! Path lemmas for the restore guard. -/

/-- The common prefix never exceeds the base length. -/
theorem commonPrefixLen_le (a b : List String) : commonPrefixLen a b ≤ a.length := by
  induction a generalizing b with
  | nil => cases b <;> simp [commonPrefixLen]
  | cons x xs ih =>
    cases b with
    | nil => simp [commonPrefixLen]
    | cons y ys =>
      by_cases h : x = y
      · have hred : commonPrefixLen (x :: xs) (y :: ys) = 1 + commonPrefixLen xs ys := by
          simp [commonPrefixLen, h]
        rw [hred, List.length_cons]
        have := ih ys
        omega
      · have hred : commonPrefixLen (x :: xs) (y :: ys) = 0 := by
          simp [commonPrefixLen, h]
        rw [hred]
        omega

/-- A full-length common prefix is a list prefix. -/
theorem prefix_of_commonPrefixLen (a : List String) (b : List String)
    (h : commonPrefixLen a b = a.length) : a <+: b := by
  induction a generalizing b with
  | nil => exact List.nil_prefix
  | cons x xs ih =>
    cases b with
    | nil =>
      have hred : commonPrefixLen (x :: xs) ([] : List String) = 0 := rfl
      rw [hred, List.length_cons] at h
      omega
    | cons y ys =>
      by_cases hxy : x = y
      · subst hxy
        have hred : commonPrefixLen (x :: xs) (x :: ys) = 1 + commonPrefixLen xs ys := by
          simp [commonPrefixLen]
        rw [hred, List.length_cons] at h
        exact List.cons_prefix_cons.mpr ⟨rfl, ih ys (by omega)⟩
      · have hred : commonPrefixLen (x :: xs) (y :: ys) = 0 := by
          simp [commonPrefixLen, hxy]
        rw [hred, List.length_cons] at h
        omega

/-- A joined segment list led by dot-dot starts with dot-dot. -/
theorem joinSegs_dotdot_pre (tail : List String) :
    goHasPre (joinSegs (".." :: tail)) ".." = true := by
  cases tail with
  | nil => decide
  | cons a rest =>
    show goHasPre (".." ++ ("/" ++ joinSegs (a :: rest))) ".." = true
    unfold goHasPre
    rw [String.data_append, List.isPrefixOf_iff_prefix]
    exact List.prefix_append _ _

/-- A passing restore guard means the join target stays under the base. -/
theorem restoreCheckOk_under (tmp : List String) (name : String)
    (h : restoreCheckOk tmp name = true) : tmp <+: absJoinSegs tmp name := by
  by_contra hnp
  have hcle := commonPrefixLen_le tmp (absJoinSegs tmp name)
  have hclt : commonPrefixLen tmp (absJoinSegs tmp name) < tmp.length := by
    rcases lt_or_eq_of_le hcle with hlt | heq
    · exact hlt
    · exact absurd (prefix_of_commonPrefixLen _ _ heq) hnp
  unfold restoreCheckOk at h
  rw [Bool.not_eq_true'] at h
  obtain ⟨m, hm⟩ : ∃ m, tmp.length - commonPrefixLen tmp (absJoinSegs tmp name) = m + 1 :=
    ⟨tmp.length - commonPrefixLen tmp (absJoinSegs tmp name) - 1, by omega⟩
  have hsegs : goRelSegs tmp (absJoinSegs tmp name)
      = ".." :: (List.replicate m ".."
          ++ (absJoinSegs tmp name).drop (commonPrefixLen tmp (absJoinSegs tmp name))) := by
    unfold goRelSegs
    rw [hm, List.replicate_succ, List.cons_append]
  rw [goRelString, hsegs] at h
  have h' : goHasPre (joinSegs (".." :: (List.replicate m ".."
      ++ (absJoinSegs tmp name).drop (commonPrefixLen tmp (absJoinSegs tmp name))))) ".."
      = false := h
  exact Bool.false_ne_true (h'.symm.trans (joinSegs_dotdot_pre _))

/-- Unfolding equation of the extraction loop on a nonempty entry list. -/
theorem restoreExtract_cons (tmp : List String) (e : TarEntry) (rest : List TarEntry) :
    restoreExtract tmp (e :: rest)
      = if restoreCheckOk tmp e.name then
          match e.typ with
          | .dir => ((absJoinSegs tmp e.name, TarType.dir) :: (restoreExtract tmp rest).1,
                      (restoreExtract tmp rest).2)
          | .reg => ((absJoinSegs tmp e.name, TarType.reg) :: (restoreExtract tmp rest).1,
                      (restoreExtract tmp rest).2)
          | .other => restoreExtract tmp rest
        else ([], some ("invalid file path in backup: " ++ e.name)) := by
  rfl

/-- Every write target of the extraction loop stays under the base. -/
theorem restoreExtract_writes_under (tmp : List String) (entries : List TarEntry) :
    ∀ w ∈ (restoreExtract tmp entries).1, tmp <+: w.1 := by
  induction entries with
  | nil => intro w hw; simp [restoreExtract] at hw
  | cons e0 rest ih =>
    obtain ⟨nm, ty⟩ := e0
    intro w hw
    rw [restoreExtract_cons] at hw
    by_cases hck : restoreCheckOk tmp nm = true
    · rw [if_pos hck] at hw
      have hpre := restoreCheckOk_under tmp nm hck
      cases ty with
      | dir =>
        rcases List.mem_cons.mp hw with rfl | hw'
        · exact hpre
        · exact ih w hw'
      | reg =>
        rcases List.mem_cons.mp hw with rfl | hw'
        · exact hpre
        · exact ih w hw'
      | other => exact ih w hw
    · rw [if_neg hck] at hw
      simp at hw

/-- A run with no error had every entry pass the guard. -/
theorem restoreExtract_success_checks (tmp : List String) (entries : List TarEntry)
    (hnone : (restoreExtract tmp entries).2 = none) :
    ∀ e ∈ entries, restoreCheckOk tmp e.name = true := by
  induction entries with
  | nil => intro e he; simp at he
  | cons e0 rest ih =>
    obtain ⟨nm, ty⟩ := e0
    intro e he
    rw [restoreExtract_cons] at hnone
    by_cases hck : restoreCheckOk tmp nm = true
    · rw [if_pos hck] at hnone
      have hnone' : (restoreExtract tmp rest).2 = none := by
        cases ty <;> simpa using hnone
      rcases List.mem_cons.mp he with rfl | he'
      · exact hck
      · exact ih hnone' e he'
    · rw [if_neg hck] at hnone
      simp at hnone

/-- An escaping entry makes the run fail and is itself never written. -/
theorem restoreExtract_escape (tmp : List String) (entries : List TarEntry) :
    ∀ e ∈ entries, ¬ tmp <+: absJoinSegs tmp e.name →
      (restoreExtract tmp entries).2.isSome = true
        ∧ absJoinSegs tmp e.name ∉ (restoreExtract tmp entries).1.map Prod.fst := by
  induction entries with
  | nil => intro e he; simp at he
  | cons e0 rest ih =>
    obtain ⟨nm, ty⟩ := e0
    intro e he hesc
    by_cases hck : restoreCheckOk tmp nm = true
    · have hne : absJoinSegs tmp e.name ≠ absJoinSegs tmp nm := by
        intro heq
        exact hesc (heq ▸ restoreCheckOk_under tmp nm hck)
      rcases List.mem_cons.mp he with rfl | he'
      · exact absurd (restoreCheckOk_under tmp _ hck) hesc
      · obtain ⟨hsome, hnotin⟩ := ih e he' hesc
        rw [restoreExtract_cons, if_pos hck]
        cases ty with
        | dir =>
          refine ⟨hsome, ?_⟩
          rw [List.map_cons]
          intro hmem
          rcases List.mem_cons.mp hmem with heq | hmem'
          · exact hne heq
          · exact hnotin hmem'
        | reg =>
          refine ⟨hsome, ?_⟩
          rw [List.map_cons]
          intro hmem
          rcases List.mem_cons.mp hmem with heq | hmem'
          · exact hne heq
          · exact hnotin hmem'
        | other => exact ⟨hsome, hnotin⟩
    · rw [restoreExtract_cons, if_neg hck]
      exact ⟨rfl, by simp⟩

/-- C10: RestoreBackup never writes outside its temporary extraction
directory: every write target of the extraction loop (also on runs that
abort early) lies under the temporary directory; the instance directory is
replaced only when every entry passed the guard; and an entry whose cleaned
name resolves outside the temporary directory makes the run return the
invalid-path error without that target ever being written. -/
theorem restoreBackup_safety (tmp : List String) (entries : List TarEntry) :
    (∀ w ∈ (restoreExtract tmp entries).1, tmp <+: w.1)
      ∧ (∀ ws, restoreBackup tmp entries = RestoreOutcome.replaced ws →
          ∀ e ∈ entries, restoreCheckOk tmp e.name = true)
      ∧ (∀ e ∈ entries, ¬ tmp <+: absJoinSegs tmp e.name →
          (restoreExtract tmp entries).2.isSome = true
            ∧ absJoinSegs tmp e.name ∉ (restoreExtract tmp entries).1.map Prod.fst) := by
  refine ⟨restoreExtract_writes_under tmp entries, ?_, restoreExtract_escape tmp entries⟩
  intro ws hrepl
  apply restoreExtract_success_checks tmp entries
  unfold restoreBackup at hrepl
  cases hx : (restoreExtract tmp entries).2 with
  | none => rfl
  | some err =>
    rw [show restoreExtract tmp entries
        = ((restoreExtract tmp entries).1, (restoreExtract tmp entries).2) from rfl, hx] at hrepl
    simp at hrepl

/-- C10 witness: a dot-dot entry in a concrete backup triggers the
invalid-path error and is never written. -/
theorem restoreBackup_safety_witness :
    (restoreExtract ["tmp", "restore1"] [⟨"../evil", TarType.reg⟩]).2.isSome = true
      ∧ absJoinSegs ["tmp", "restore1"] "../evil"
          ∉ (restoreExtract ["tmp", "restore1"] [⟨"../evil", TarType.reg⟩]).1.map Prod.fst :=
  (restoreBackup_safety ["tmp", "restore1"] [⟨"../evil", TarType.reg⟩]).2.2
    ⟨"../evil", TarType.reg⟩ (by decide) (by decide)

/-- Index search finds the first separator after a separator-free block. -/
theorem findSubIdx_space (xs ys : List Char) (h : ' ' ∉ xs) :
    findSubIdx [' '] (xs ++ ' ' :: ys) = some xs.length := by
  induction xs with
  | nil => simp [findSubIdx, List.isPrefixOf]
  | cons c rest ih =>
    have hc : (' ' : Char) ≠ c := fun hh => h (hh ▸ List.mem_cons_self c rest)
    have hrest : ' ' ∉ rest := fun hm => h (List.mem_cons_of_mem c hm)
    simp only [List.cons_append, findSubIdx, List.isPrefixOf, beq_iff_eq, List.append_eq]
    rw [if_neg (by simpa using hc), ih hrest]
    simp

/-- One SplitN step across a space-free block. -/
theorem goSplitNCore_space (n : Nat) (xs ys : List Char) (h : ' ' ∉ xs) :
    goSplitNCore [' '] (n + 2) (xs ++ ' ' :: ys) = xs :: goSplitNCore [' '] (n + 1) ys := by
  have hfind := findSubIdx_space xs ys h
  have htake : (xs ++ ' ' :: ys).take xs.length = xs := List.take_left xs (' ' :: ys)
  have hdrop : (xs ++ ' ' :: ys).drop (xs.length + [' '].length) = ys := by
    have hre : xs ++ ' ' :: ys = (xs ++ [' ']) ++ ys := by simp
    rw [hre, show xs.length + [' '].length = (xs ++ [' ']).length by simp]
    exact List.drop_left _ _
  conv_lhs => rw [goSplitNCore]
  rw [hfind]
  simp only [htake, hdrop]

/-- A nonempty string has a nonempty character list. -/
theorem data_ne_nil (w : String) (h : w ≠ "") : w.data ≠ [] := by
  intro hnil
  apply h
  cases w
  simp at hnil
  simp [hnil]

/-- Splitting a four-field line with space-free first three fields. -/
theorem goSplitN_four (d t lvl msg : String)
    (hd : ' ' ∉ d.data) (ht : ' ' ∉ t.data) (hl : ' ' ∉ lvl.data) :
    goSplitN (d ++ " " ++ t ++ " " ++ lvl ++ " " ++ msg) " " 4 = [d, t, lvl, msg] := by
  unfold goSplitN
  have hdata : (d ++ " " ++ t ++ " " ++ lvl ++ " " ++ msg).data
      = d.data ++ ' ' :: (t.data ++ ' ' :: (lvl.data ++ ' ' :: msg.data)) := by
    simp [String.data_append]
  rw [hdata]
  rw [show (" " : String).data = [' '] from rfl]
  rw [show (4 : Nat) = 2 + 2 from rfl]
  rw [goSplitNCore_space 2 _ _ hd]
  rw [show (2 : Nat) + 1 = 1 + 2 from rfl]
  rw [goSplitNCore_space 1 _ _ ht]
  rw [show (1 : Nat) + 1 = 0 + 2 from rfl]
  rw [goSplitNCore_space 0 _ _ hl]
  rfl

/-- Trimming the surrounding brackets from a bracket-free word. -/
theorem goTrimCut_brackets (w : String) (hne : w ≠ "")
    (hw : ∀ c ∈ w.data, c ≠ '[' ∧ c ≠ ']') :
    goTrimCut ("[" ++ w ++ "]") ['[', ']'] = w := by
  obtain ⟨c0, cs, hw0⟩ : ∃ c0 cs, w.data = c0 :: cs := by
    cases hdw : w.data with
    | nil => exact absurd hdw (data_ne_nil w hne)
    | cons a l => exact ⟨a, l, rfl⟩
  unfold goTrimCut
  have hdata : ("[" ++ w ++ "]").data = '[' :: (w.data ++ [']']) := by
    simp [String.data_append]
  rw [hdata]
  have hnb : ∀ c ∈ w.data, (['[', ']'].contains c) = false := by
    intro c hc
    obtain ⟨h1, h2⟩ := hw c hc
    simp [List.contains, h1, h2]
  have hdw1 : List.dropWhile (fun c => ['[', ']'].contains c) ('[' :: (w.data ++ [']']))
      = List.dropWhile (fun c => ['[', ']'].contains c) (w.data ++ [']']) := by
    rw [List.dropWhile_cons]
    simp
  have hdw2 : List.dropWhile (fun c => ['[', ']'].contains c) (w.data ++ [']'])
      = w.data ++ [']'] := by
    rw [hw0, List.cons_append, List.dropWhile_cons]
    rw [hnb c0 (by rw [hw0]; exact List.mem_cons_self c0 cs)]
    simp
  rw [hdw1, hdw2]
  have hrev : (w.data ++ [']']).reverse = ']' :: w.data.reverse := by simp
  rw [hrev]
  have hdw3 : List.dropWhile (fun c => ['[', ']'].contains c) (']' :: w.data.reverse)
      = List.dropWhile (fun c => ['[', ']'].contains c) w.data.reverse := by
    rw [List.dropWhile_cons]
    simp
  rw [hdw3]
  obtain ⟨d0, ds, hrev0⟩ : ∃ d0 ds, w.data.reverse = d0 :: ds := by
    cases hdr : w.data.reverse with
    | nil =>
      rw [hw0] at hdr
      simp at hdr
    | cons a l => exact ⟨a, l, rfl⟩
  have hdw4 : List.dropWhile (fun c => ['[', ']'].contains c) w.data.reverse
      = w.data.reverse := by
    rw [hrev0, List.dropWhile_cons]
    rw [hnb d0 (by rw [← List.mem_reverse, hrev0]; exact List.mem_cons_self d0 ds)]
    simp
  rw [hdw4]
  simp

/-- Strings with equal character lists are equal. -/
theorem str_ext (a b : String) (h : a.data = b.data) : a = b := by
  cases a
  cases b
  exact congrArg String.mk (by simpa using h)

/-- C7 (amended): for every line that splits into four space-separated
parts whose first two are a 10-byte date and an 8-byte time forming a valid
timestamp, parseLine returns that timestamp, the third part with leading and
trailing square brackets trimmed mapped case-insensitively to a level (so
the brackets are optional, not required), and the fourth part as the
message; every line the acceptance condition rejects yields an entry with
the whole line as message, level info and the current time. -/
theorem parseLine_amended (now : DateTime) :
    (∀ line d t lvl msg ts, goSplitN line " " 4 = [d, t, lvl, msg] →
        goByteLen d.data = 10 → goByteLen t.data = 8 → goParseDateTime d t = some ts →
        parseLine now line = ⟨ts, levelOfWord (goTrimCut lvl ['[', ']']), msg, line⟩)
      ∧ (∀ line, codeStructured line = false →
          parseLine now line = ⟨now, LogLevel.info, line, line⟩) := by
  constructor
  · intro line d t lvl msg ts hsp h10 h8 hpt
    have hne : line ≠ "" := by
      intro hz
      subst hz
      rw [show goSplitN "" " " 4 = [""] from rfl] at hsp
      exact absurd hsp (by simp)
    unfold parseLine
    rw [if_neg hne, hsp]
    show (if goByteLen d.data = 10 ∧ goByteLen t.data = 8 then
        match goParseDateTime d t with
        | some ts2 => LogEntry.mk ts2 (levelOfWord (goTrimCut lvl ['[', ']'])) msg line
        | none => LogEntry.mk now LogLevel.info line line
      else LogEntry.mk now LogLevel.info line line)
        = LogEntry.mk ts (levelOfWord (goTrimCut lvl ['[', ']'])) msg line
    rw [if_pos ⟨h10, h8⟩, hpt]
  · intro line hcs
    by_cases hemp : line = ""
    · subst hemp
      rfl
    · unfold parseLine
      rw [if_neg hemp]
      unfold codeStructured at hcs
      cases hsp : goSplitN line " " 4 with
      | nil => rfl
      | cons a l1 =>
        cases l1 with
        | nil => rfl
        | cons b l2 =>
          cases l2 with
          | nil => rfl
          | cons c l3 =>
            cases l3 with
            | nil => rfl
            | cons e l4 =>
              cases l4 with
              | cons f l5 => rfl
              | nil =>
                rw [hsp] at hcs
                have hcs2 : (decide (goByteLen a.data = 10) && decide (goByteLen b.data = 8)
                    && (goParseDateTime a b).isSome) = false := hcs
                show (if goByteLen a.data = 10 ∧ goByteLen b.data = 8 then
                    match goParseDateTime a b with
                    | some ts2 =>
                      LogEntry.mk ts2 (levelOfWord (goTrimCut c ['[', ']'])) e line
                    | none => LogEntry.mk now LogLevel.info line line
                  else LogEntry.mk now LogLevel.info line line)
                    = LogEntry.mk now LogLevel.info line line
                by_cases hlen : goByteLen a.data = 10 ∧ goByteLen b.data = 8
                · rw [if_pos hlen]
                  cases hdt : goParseDateTime a b with
                  | none => rfl
                  | some ts2 =>
                    exfalso
                    rw [hdt] at hcs2
                    simp [hlen.1, hlen.2] at hcs2
                · rw [if_neg hlen]

/-- C7 counterexample: a line with a valid timestamp but an unbracketed
level word does not match the claimed bracket shape, yet parseLine still
parses it structurally (level error, message Boom) instead of producing the
whole-line info entry the claim requires for such lines. -/
theorem parseLine_counterexample :
    claimShapedLine "2025-10-19 12:34:56 ERROR Boom" = false
      ∧ parseLine ⟨2000, 1, 1, 0, 0, 0⟩ "2025-10-19 12:34:56 ERROR Boom"
          = ⟨⟨2025, 10, 19, 12, 34, 56⟩, LogLevel.error, "Boom",
              "2025-10-19 12:34:56 ERROR Boom"⟩
      ∧ parseLine ⟨2000, 1, 1, 0, 0, 0⟩ "2025-10-19 12:34:56 ERROR Boom"
          ≠ ⟨⟨2000, 1, 1, 0, 0, 0⟩, LogLevel.info, "2025-10-19 12:34:56 ERROR Boom",
              "2025-10-19 12:34:56 ERROR Boom"⟩ := by decide

/-- C7 witness: the amended statement applied to the two lines named by the
claim, the bracketed error line and the unstructured one. -/
theorem parseLine_witness :
    parseLine ⟨2000, 1, 1, 0, 0, 0⟩ "2025-10-19 12:34:56 [ERROR] Boom"
        = ⟨⟨2025, 10, 19, 12, 34, 56⟩, LogLevel.error, "Boom",
            "2025-10-19 12:34:56 [ERROR] Boom"⟩
      ∧ parseLine ⟨2000, 1, 1, 0, 0, 0⟩ "unstructured"
        = ⟨⟨2000, 1, 1, 0, 0, 0⟩, LogLevel.info, "unstructured", "unstructured"⟩ := by
  constructor
  · have h := (parseLine_amended ⟨2000, 1, 1, 0, 0, 0⟩).1 "2025-10-19 12:34:56 [ERROR] Boom"
      "2025-10-19" "12:34:56" "[ERROR]" "Boom" ⟨2025, 10, 19, 12, 34, 56⟩
      (by decide) (by decide) (by decide) (by decide)
    rw [show levelOfWord (goTrimCut "[ERROR]" ['[', ']']) = LogLevel.error from by decide] at h
    exact h
  · exact (parseLine_amended ⟨2000, 1, 1, 0, 0, 0⟩).2 "unstructured" (by decide)

/-- The failing configuration for the round-trip claim: a valid instance
configuration whose mods.sources holds a url source-spec (every url spec
contains the two slashes of its scheme separator). -/
def c4cfg : Config :=
  { name := "srv", version := "1.1", runtime := "", port := 0, headless := false,
    saveFile := "",
    mods := { enabled := ["m"], sources := [("m", "url:https://example.com/mod.zip")] },
    server := none }

set_option maxRecDepth 16000 in
/-- C4: the configuration is valid, SaveConfig serializes it to well-formed
JSON, but the comment stripper of jsonc.Parse cuts the sources line at the
two slashes inside the url string, leaving text that no longer parses as
JSON, so LoadConfig fails and the round trip does not return the
configuration. -/
theorem jsonc_roundtrip_bug :
    configValidate c4cfg = none
      ∧ jsonValid (marshalConfig c4cfg) = true
      ∧ jsonValid (jsoncStrip (marshalConfig c4cfg)) = false := by decide
